import Mathlib

/-!
Verification of the weighted Max-Cut QAOA notebook core
(`Graph` class, `get_expectation`, and the `sk_get_exp` wrapper used by the
optimizer-comparison driver).

The Python code is shallowly embedded:
* `self.adj` (a dict from vertex to a dict from neighbour to weight, with the
  outer dict created with keys `0 .. N-1` and the inner dicts grown by
  insertion-ordered overwrite) becomes a `List (List (ℕ × ℤ))` of length `N`,
  inner association lists updated by `upsert` (Python dict semantics: an
  existing key keeps its position, a new key is appended).
* `float('-inf')` for `currentScore` becomes `(⊥ : WithBot ℤ)`.
* Bitstrings (Python strings of `'0'`/`'1'`) become `List Bool`, most
  significant character first, `'0' ↦ false`.
* `gamma`, `beta` and expectation values become `ℚ` (exact stand-in for the
  floats that are only stored, compared and accumulated).
* Fallible operations return `Option`: `add_edge` raises `KeyError` when
  `u` is not a key of `adj` (that is its only failure mode — there is no
  argument validation in the source), and `get_score` fails its `assert`
  when the bitstring length differs from `N`.
Methods that read or write `self` take and return the `Graph` state.
-/

/-- Python-dict insert-or-update on an association list: an existing key
keeps its position and gets the new value, a new key is appended. -/
def upsert (v : ℕ) (w : ℤ) : List (ℕ × ℤ) → List (ℕ × ℤ)
  | [] => [(v, w)]
  | p :: rest => if p.1 = v then (v, w) :: rest else p :: upsert v w rest

/-- The `Graph` class state: vertex count `N`, edge counter `E`, adjacency
`adj`, and the mutable tracking fields `currentScore`, `currentBest`, `runs`. -/
structure Graph where
  N : ℕ
  E : ℕ
  adj : List (List (ℕ × ℤ))
  currentScore : WithBot ℤ
  currentBest : List Bool
  runs : List (ℚ × ℚ × ℚ)
deriving DecidableEq

namespace Graph

/-- `__init__(N, randomize=False)`: `N` vertices, `E = 0`, empty neighbour
map for every vertex in `0 .. N-1`, `currentScore = -inf`, `currentBest`
empty, `runs` empty.  (The `randomize=True` branch only issues a sequence of
`add_edge` calls with distinct unordered pairs and weights in `[1, 100]`;
claims over constructed graphs quantify over `add_edge` sequences.) -/
def init (n : ℕ) : Graph :=
  ⟨n, 0, List.replicate n [], ⊥, [], []⟩

/-- `add_edge(u, v, weight)`: `self.E += 1; self.adj[u][v] = weight`.
No validation of any kind is performed; the only failure mode of the source
line is the `KeyError` raised when `u` is not a key of `adj`, i.e. `u ≥ N`. -/
def add_edge (g : Graph) (u v : ℕ) (w : ℤ) : Option Graph :=
  if u < g.adj.length then
    some { g with E := g.E + 1, adj := g.adj.set u (upsert v w (g.adj.getD u [])) }
  else none

end Graph

/-- One row of the `get_score` double loop: for a fixed `u`, sum the weights
of the stored neighbours `v` of `u` with `bitstring[u] != bitstring[v]`. -/
def cutRow (b : List Bool) (u : ℕ) (nbrs : List (ℕ × ℤ)) : ℤ :=
  (nbrs.map (fun p => if b.getD u false ≠ b.getD p.1 false then p.2 else 0)).sum

/-- The `get_score` double loop over `adj`, the outer index starting at `u`. -/
def cutScoreFrom (b : List Bool) : ℕ → List (List (ℕ × ℤ)) → ℤ
  | _, [] => 0
  | u, nbrs :: rest => cutRow b u nbrs + cutScoreFrom b (u + 1) rest

/-- The pure value computed by `get_score`: sum over all stored edges
`(u, v, w)` with `bitstring[u] != bitstring[v]` of `w`. -/
def cutScore (adj : List (List (ℕ × ℤ))) (b : List Bool) : ℤ :=
  cutScoreFrom b 0 adj

namespace Graph

/-- `get_score(bitstring)`: `assert len(bitstring) == self.N`, then the
double loop summing the weights of cut edges.  Reads `self` only. -/
def get_score (g : Graph) (b : List Bool) : Option (ℤ × Graph) :=
  if b.length = g.N then some (cutScore g.adj b, g) else none

/-- `update_score(bitstring)`: `score = self.get_score(bitstring)`;
if `score > self.currentScore` replace `currentScore` and `currentBest`;
always return the computed score. -/
def update_score (g : Graph) (b : List Bool) : Option (ℤ × Graph) :=
  (g.get_score b).map (fun p =>
    (p.1,
      if (p.1 : WithBot ℤ) > p.2.currentScore then
        { p.2 with currentScore := (p.1 : WithBot ℤ), currentBest := b }
      else p.2))

/-- `clear_runs()`: reset `currentScore` to `-inf`, `currentBest` to the
empty bitstring, `runs` to the empty list.  Topology is untouched. -/
def clear_runs (g : Graph) : Graph :=
  { g with currentScore := ⊥, currentBest := [], runs := [] }

/-- `add_run(gamma, beta, expected_value)`: append one run record. -/
def add_run (g : Graph) (γ β e : ℚ) : Graph :=
  { g with runs := g.runs ++ [(γ, β, e)] }

end Graph

/-- Fuel-indexed binary digits, least-significant first (structural
recursion so that the kernel can evaluate it; the fuel is immaterial as soon
as it dominates the argument, see `natBitsF_of_le`). -/
def natBitsF : ℕ → ℕ → List Bool
  | _, 0 => []
  | 0, _ + 1 => []
  | fuel + 1, i + 1 => decide ((i + 1) % 2 = 1) :: natBitsF fuel ((i + 1) / 2)

/-- The digits of `bin(i)[2:]` in least-significant-first order
(empty for `i = 0`; no leading zeros). -/
def natBits (i : ℕ) : List Bool :=
  natBitsF i i

/-- `bin(i)[2:]` as a list of bits, most significant first
(`"0"` for `i = 0`). -/
def pyBin (i : ℕ) : List Bool :=
  if i = 0 then [false] else (natBits i).reverse

/-- `(self.N - len(bitstring)) * "0" + bitstring`: left-pad with zeros
to length `n` (no-op when the string is already at least that long). -/
def padBits (n : ℕ) (l : List Bool) : List Bool :=
  List.replicate (n - l.length) false ++ l

namespace Graph

/-- `optimal_score()`: starting from `best = 0`, `best_val = []`, iterate
`i` over `range(ceil(2**N / 2))`; zero-pad `bin(i)[2:]` to `N` digits, score
it with `self.get_score`, and keep the running maximum together with the
list of bitstrings attaining it (reset on a strict improvement, append on a
tie).  State is threaded through the `get_score` calls. -/
def optimal_score (g : Graph) : Option ((ℤ × List (List Bool)) × Graph) :=
  (List.range ((2 ^ g.N + 1) / 2)).foldlM
    (fun acc i =>
      let b := padBits acc.2.N (pyBin i)
      (acc.2.get_score b).map (fun p =>
        ((if acc.1.1 < p.1 then (p.1, [b])
          else if p.1 = acc.1.1 then (acc.1.1, acc.1.2 ++ [b])
          else acc.1), p.2)))
    ((0, []), g)

end Graph

/-- `get_expectation(x, g, NUM_SHOTS)` after the external simulator returned
`result_dict` (here the explicit argument `dist`, a list of
(outcome bitstring, observed count) pairs): for every outcome, divide its
count by the shot count, register it with `g.update_score`, and accumulate
`score * prob`; then `g.add_run(gamma, beta, exp)` and return `exp`
(the *positive* expectation). -/
def get_expectation (γ β : ℚ) (g : Graph) (dist : List (List Bool × ℕ))
    (shots : ℕ) : Option (ℚ × Graph) :=
  (dist.foldlM
      (fun (acc : ℚ × Graph) p =>
        (acc.2.update_score p.1).map
          (fun q => (acc.1 + (q.1 : ℚ) * ((p.2 : ℚ) / (shots : ℚ)), q.2)))
      (0, g)).map
    (fun r => (r.1, r.2.add_run γ β r.1))

/-- `sk_get_exp = lambda x: -1 * get_expectation(x, inst)`: the objective
the optimizer driver actually minimizes — the negated expectation, with the
same side effects on the graph. -/
def sk_get_exp (γ β : ℚ) (g : Graph) (dist : List (List Bool × ℕ))
    (shots : ℕ) : Option (ℚ × Graph) :=
  (get_expectation γ β g dist shots).map (fun r => ((-1 : ℚ) * r.1, r.2))

/-- Well-formedness of a graph's topology: the adjacency list has one row
per vertex and every stored neighbour is a vertex (this is exactly the class
of graphs on which the Python methods run without `IndexError`). -/
def WFGraph (g : Graph) : Prop :=
  g.adj.length = g.N ∧ ∀ row ∈ g.adj, ∀ p ∈ row, p.1 < g.N

instance (g : Graph) : Decidable (WFGraph g) := by
  unfold WFGraph; infer_instance

/-- Total number of entries across all vertices' neighbour maps. -/
def totalEntries (g : Graph) : ℕ :=
  (g.adj.map List.length).sum

/-- The weight stored for the ordered pair `(u, v)`, if any. -/
def lookupW (g : Graph) (u v : ℕ) : Option ℤ :=
  (g.adj.getD u []).lookup v

/-- Numeric value of a bitstring, most significant bit first (the inverse
direction of the `bin(i)[2:]` conversion used by `optimal_score`). -/
def bitsVal : List Bool → ℕ
  | [] => 0
  | a :: r => (cond a 1 0) * 2 ^ r.length + bitsVal r

/-- The pure step of the `optimal_score` loop (used to analyse the fold
once the threaded state is known to be constant). -/
def optStep (g : Graph) (acc : ℤ × List (List Bool)) (i : ℕ) :
    ℤ × List (List Bool) :=
  let b := padBits g.N (pyBin i)
  let sc := cutScore g.adj b
  if acc.1 < sc then (sc, [b]) else if sc = acc.1 then (acc.1, acc.2 ++ [b]) else acc

/-- The loop body of `optimal_score`, named so that the fold can be analysed
step by step (definitionally equal to the lambda in `optimal_score`). -/
def optMStep (acc : (ℤ × List (List Bool)) × Graph) (i : ℕ) :
    Option ((ℤ × List (List Bool)) × Graph) :=
  let b := padBits acc.2.N (pyBin i)
  (acc.2.get_score b).map (fun p =>
    ((if acc.1.1 < p.1 then (p.1, [b])
      else if p.1 = acc.1.1 then (acc.1.1, acc.1.2 ++ [b])
      else acc.1), p.2))

/-- A sequence of `add_edge` calls. -/
def addEdges (g : Graph) (es : List (ℕ × ℕ × ℤ)) : Option Graph :=
  es.foldlM (fun h e => h.add_edge e.1 e.2.1 e.2.2) g

/-- A sequence of `update_score` calls (discarding the returned scores). -/
def runUpdates (g : Graph) (bs : List (List Bool)) : Option Graph :=
  bs.foldlM (fun h b => (h.update_score b).map Prod.snd) g

/-- The evaluation-time operations on a graph: the `update_score` and
`add_run` calls issued while an optimizer drives `get_expectation`. -/
inductive EvalOp where
  | upd : List Bool → EvalOp
  | addRun : ℚ → ℚ → ℚ → EvalOp

/-- Apply one evaluation operation. -/
def applyOp (g : Graph) : EvalOp → Option Graph
  | .upd b => (g.update_score b).map Prod.snd
  | .addRun γ β e => some (g.add_run γ β e)

/-- The `currentScore` value after each step of an evaluation sequence. -/
def trajectory (g : Graph) : List EvalOp → Option (List (WithBot ℤ))
  | [] => some []
  | op :: rest =>
    (applyOp g op).bind fun h =>
      (trajectory h rest).map fun t => h.currentScore :: t

/-- Run a whole evaluation sequence. -/
def runOps (g : Graph) (ops : List EvalOp) : Option Graph :=
  ops.foldlM applyOp g

/-- Agreement on every field that the evaluation operations read or write
(everything except the edge counter `E`). -/
def Agree (g1 g2 : Graph) : Prop :=
  g1.N = g2.N ∧ g1.adj = g2.adj ∧ g1.currentScore = g2.currentScore ∧
    g1.currentBest = g2.currentBest ∧ g1.runs = g2.runs

/-- The spec's concrete 3-vertex graph with edges `(0,1,w=5)` and
`(1,2,w=3)`, as built by `add_edge` (see `concrete_scenario_scores`). -/
def gEx : Graph :=
  ⟨3, 2, [[(1, 5)], [(2, 3)], []], ⊥, [], []⟩

/-- The graph obtained from `Graph.init 2` by `add_edge(0,1,5)` then
`add_edge(0,1,7)`: the duplicate ordered pair overwrites the weight but the
edge counter is incremented twice. -/
def gDup : Graph :=
  ⟨2, 2, [[(1, 7)], []], ⊥, [], []⟩

/-- A 2-vertex graph mid-optimization (non-trivial tracking state), used to
exercise `clear_runs`. -/
def gW : Graph :=
  ⟨2, 1, [[(1, 7)], []], (5 : ℤ), [true, false], [(1, 2, 3)]⟩

/-- A fresh graph with the same topology as `gW`. -/
def gW0 : Graph :=
  ⟨2, 1, [[(1, 7)], []], ⊥, [], []⟩

/-- A short evaluation sequence for the `clear_runs` equivalence. -/
def opsW : List EvalOp :=
  [EvalOp.upd [true, false], EvalOp.addRun 1 0 7, EvalOp.upd [false, false]]

/-! ## Binary representation lemmas -/

theorem natBitsF_of_le :
    ∀ fuel fuel' i, i ≤ fuel → i ≤ fuel' → natBitsF fuel i = natBitsF fuel' i := by
  intro fuel
  induction fuel with
  | zero => intro fuel' i h1 _; interval_cases i; cases fuel' <;> rfl
  | succ f ih =>
    intro fuel' i h1 h2
    match i, fuel' with
    | 0, fuel' => cases fuel' <;> rfl
    | i + 1, 0 => omega
    | i + 1, f' + 1 =>
      show _ :: natBitsF f ((i + 1) / 2) = _ :: natBitsF f' ((i + 1) / 2)
      rw [ih f' ((i + 1) / 2) (by omega) (by omega)]

theorem natBits_succ (i : ℕ) :
    natBits (i + 1) = decide ((i + 1) % 2 = 1) :: natBits ((i + 1) / 2) := by
  show natBitsF (i + 1) (i + 1) = _
  show _ :: natBitsF i ((i + 1) / 2) = _ :: natBitsF ((i + 1) / 2) ((i + 1) / 2)
  rw [natBitsF_of_le i ((i + 1) / 2) ((i + 1) / 2) (by omega) (by omega)]

theorem natBits_eq_cons (i : ℕ) (h : i ≠ 0) :
    natBits i = decide (i % 2 = 1) :: natBits (i / 2) := by
  obtain ⟨j, rfl⟩ : ∃ j, i = j + 1 := ⟨i - 1, by omega⟩
  exact natBits_succ j

theorem natBits_two_mul_add (v : ℕ) (hv : 1 ≤ v) (a : Bool) :
    natBits (2 * v + cond a 1 0) = a :: natBits v := by
  rw [natBits_eq_cons (2 * v + cond a 1 0) (by cases a <;> simp <;> omega)]
  have h1 : (2 * v + cond a 1 0) % 2 = cond a 1 0 := by cases a <;> simp <;> omega
  have h2 : (2 * v + cond a 1 0) / 2 = v := by cases a <;> simp <;> omega
  rw [h1, h2]
  cases a <;> simp

theorem natBits_length_le : ∀ i k, i < 2 ^ k → (natBits i).length ≤ k := by
  intro i
  induction i using Nat.strong_induction_on with
  | _ i ih =>
    intro k hk
    match i, k with
    | 0, k => simp [natBits, natBitsF]
    | i + 1, 0 => omega
    | i + 1, k + 1 =>
      rw [natBits_succ]
      have hlt : (i + 1) / 2 < 2 ^ k := by
        have : 2 ^ (k + 1) = 2 ^ k * 2 := by ring
        omega
      have := ih ((i + 1) / 2) (by omega) k hlt
      simpa using this

theorem pyBin_length_le (i k : ℕ) (hk : 1 ≤ k) (hi : i < 2 ^ (k - 1)) :
    (pyBin i).length ≤ k := by
  by_cases h0 : i = 0
  · subst h0; simpa [pyBin] using hk
  · have : (natBits i).length ≤ k - 1 := natBits_length_le i (k - 1) hi
    simp only [pyBin, h0, if_false, List.length_reverse]
    omega

/-! ## Bitstring value lemmas -/

theorem bitsVal_lt : ∀ b : List Bool, bitsVal b < 2 ^ b.length := by
  intro b
  induction b with
  | nil => simp [bitsVal]
  | cons a r ih =>
    have h2 : 2 ^ (a :: r).length = 2 ^ r.length * 2 := by
      simp [List.length_cons]; ring
    simp only [bitsVal]
    cases a <;> simp <;> omega

theorem bitsVal_snoc (l : List Bool) (a : Bool) :
    bitsVal (l ++ [a]) = 2 * bitsVal l + cond a 1 0 := by
  induction l with
  | nil => cases a <;> simp [bitsVal]
  | cons x l ih =>
    simp only [List.cons_append, bitsVal, List.append_eq, ih]
    have h2 : (l ++ [a]).length = l.length + 1 := by simp
    rw [h2, pow_succ]
    ring

theorem bitsVal_head_true_pos (r : List Bool) : 0 < bitsVal (true :: r) := by
  have h : 0 < 2 ^ r.length := Nat.pos_pow_of_pos _ (by omega)
  show 0 < (cond true 1 0) * 2 ^ r.length + bitsVal r
  simp only [Bool.cond_true]
  omega

theorem pyBin_bitsVal : ∀ c : List Bool, c.head? = some true → pyBin (bitsVal c) = c := by
  intro c
  induction c using List.reverseRecOn with
  | nil => intro h; cases h
  | append_singleton l a ih =>
    intro hhead
    match l, hhead with
    | [], hhead =>
      have : a = true := by simpa using hhead
      subst this
      decide
    | x :: l', hhead =>
      have hx : x = true := by simpa using hhead
      subst hx
      have hpos : 0 < bitsVal (true :: l') := bitsVal_head_true_pos l'
      have hne : 2 * bitsVal (true :: l') + cond a 1 0 ≠ 0 := by
        cases a <;> simp <;> omega
      have hrev : pyBin (bitsVal (true :: l')) = (natBits (bitsVal (true :: l'))).reverse := by
        rw [pyBin, if_neg (by omega)]
      rw [bitsVal_snoc, pyBin, if_neg hne, natBits_two_mul_add _ hpos a,
        List.reverse_cons, ← hrev, ih rfl]

/-! ## Padding and complement lemmas -/

theorem padBits_length (n : ℕ) (l : List Bool) (h : l.length ≤ n) :
    (padBits n l).length = n := by
  simp only [padBits, List.length_append, List.length_replicate]
  omega

theorem padBits_zero (n : ℕ) :
    padBits n (pyBin 0) = List.replicate (n - 1 + 1) false := by
  rw [List.replicate_succ']
  rfl

theorem getD_replicate_false (j i : ℕ) :
    (List.replicate j false).getD i false = false := by
  rw [List.getD_eq_getElem?_getD, List.getElem?_replicate]
  split <;> rfl

theorem cutRow_allfalse (j u : ℕ) (nbrs : List (ℕ × ℤ)) :
    cutRow (List.replicate j false) u nbrs = 0 := by
  unfold cutRow
  induction nbrs with
  | nil => rfl
  | cons p rest ih =>
    simp only [List.map_cons, List.sum_cons, getD_replicate_false, ih]
    simp

theorem cutScoreFrom_allfalse (j : ℕ) :
    ∀ (adjl : List (List (ℕ × ℤ))) (u : ℕ),
      cutScoreFrom (List.replicate j false) u adjl = 0 := by
  intro adjl
  induction adjl with
  | nil => intro u; rfl
  | cons row rest ih =>
    intro u
    simp only [cutScoreFrom, cutRow_allfalse, ih]
    rfl

theorem getD_map_not (b : List Bool) (i : ℕ) (h : i < b.length) :
    (b.map not).getD i false = !(b.getD i false) := by
  rw [List.getD_eq_getElem?_getD, List.getD_eq_getElem?_getD, List.getElem?_map,
    List.getElem?_eq_getElem h]
  rfl

theorem cutRow_map_not (b : List Bool) (u : ℕ) (nbrs : List (ℕ × ℤ))
    (hu : u < b.length) (hn : ∀ p ∈ nbrs, p.1 < b.length) :
    cutRow (b.map not) u nbrs = cutRow b u nbrs := by
  unfold cutRow
  congr 1
  apply List.map_congr_left
  intro p hp
  rw [getD_map_not b u hu, getD_map_not b p.1 (hn p hp)]
  cases b.getD u false <;> cases b.getD p.1 false <;> simp

theorem cutScoreFrom_map_not (b : List Bool) :
    ∀ (adjl : List (List (ℕ × ℤ))) (u : ℕ), u + adjl.length ≤ b.length →
      (∀ row ∈ adjl, ∀ p ∈ row, p.1 < b.length) →
      cutScoreFrom (b.map not) u adjl = cutScoreFrom b u adjl := by
  intro adjl
  induction adjl with
  | nil => intro u _ _; rfl
  | cons row rest ih =>
    intro u hu hbound
    simp only [cutScoreFrom]
    rw [cutRow_map_not b u row (by simp at hu; omega)
        (fun p hp => hbound row (by simp) p hp),
      ih (u + 1) (by simp at hu ⊢; omega)
        (fun r hr p hp => hbound r (by simp [hr]) p hp)]

theorem cutScore_map_not (g : Graph) (hwf : WFGraph g) (b : List Bool)
    (hb : b.length = g.N) :
    cutScore g.adj (b.map not) = cutScore g.adj b := by
  obtain ⟨hlen, hbound⟩ := hwf
  exact cutScoreFrom_map_not b g.adj 0 (by omega)
    (fun row hr p hp => by rw [hb]; exact hbound row hr p hp)

theorem bitsVal_replicate_append (j : ℕ) (c : List Bool) :
    bitsVal (List.replicate j false ++ c) = bitsVal c := by
  induction j with
  | zero => simp
  | succ j ih =>
    rw [List.replicate_succ]
    show (cond false 1 0) * 2 ^ (List.replicate j false ++ c).length
        + bitsVal (List.replicate j false ++ c) = _
    simp only [Bool.cond_false, Nat.zero_mul, Nat.zero_add, ih]

theorem padBits_pyBin_bitsVal (n : ℕ) (hn : 1 ≤ n) (b : List Bool)
    (hb : b.length = n) :
    padBits n (pyBin (bitsVal b)) = b := by
  have hdecomp : b.takeWhile (fun x => !x) ++ b.dropWhile (fun x => !x) = b :=
    List.takeWhile_append_dropWhile (fun x => !x) b
  have htake : b.takeWhile (fun x => !x)
      = List.replicate (b.takeWhile (fun x => !x)).length false :=
    List.eq_replicate_of_mem (fun x hx => by
      have := List.mem_takeWhile_imp hx
      simpa using this)
  have hsum : (b.takeWhile (fun x => !x)).length
      + (b.dropWhile (fun x => !x)).length = n := by
    have h := congrArg List.length hdecomp
    rw [List.length_append] at h
    omega
  by_cases hc : b.dropWhile (fun x => !x) = []
  · have hb_rep : b = List.replicate n false := by
      have hlen : (b.takeWhile (fun x => !x)).length = n := by
        rw [hc] at hsum; simpa using hsum
      rw [← hdecomp, hc, List.append_nil, htake, hlen]
    have hval : bitsVal b = 0 := by
      rw [hb_rep]
      have := bitsVal_replicate_append n ([] : List Bool)
      simpa using this
    rw [hval, padBits_zero, hb_rep]
    congr 1
    omega
  · have hhead : (b.dropWhile (fun x => !x)).head? = some true := by
      have h1 := List.head_dropWhile_not (fun x => !x) b hc
      rw [List.head?_eq_head hc]
      cases h2 : (b.dropWhile (fun x => !x)).head hc
      · rw [h2] at h1; simp at h1
      · rfl
    have hval : bitsVal b = bitsVal (b.dropWhile (fun x => !x)) := by
      conv_lhs => rw [← hdecomp, htake]
      exact bitsVal_replicate_append _ _
    rw [hval, pyBin_bitsVal _ hhead]
    show List.replicate (n - (b.dropWhile (fun x => !x)).length) false
        ++ b.dropWhile (fun x => !x) = b
    conv_rhs => rw [← hdecomp, htake]
    congr 2
    omega

/-! ## The `optimal_score` fold -/

theorem optimal_score_eq_foldlM (g : Graph) :
    g.optimal_score
      = (List.range ((2 ^ g.N + 1) / 2)).foldlM optMStep ((0, []), g) := rfl

theorem optMStep_state :
    ∀ (l : List ℕ) (acc out : (ℤ × List (List Bool)) × Graph),
      l.foldlM optMStep acc = some out → out.2 = acc.2 := by
  intro l
  induction l with
  | nil =>
    intro acc out h
    simp only [List.foldlM_nil] at h
    cases h
    rfl
  | cons i l ih =>
    intro acc out h
    rw [List.foldlM_cons] at h
    cases hstep : optMStep acc i with
    | none => rw [hstep] at h; cases h
    | some acc' =>
      rw [hstep] at h
      have h' : l.foldlM optMStep acc' = some out := h
      have h2 : acc'.2 = acc.2 := by
        simp only [optMStep, Graph.get_score] at hstep
        obtain ⟨p, hp, hf⟩ := Option.map_eq_some'.mp hstep
        split at hp
        · cases hp; cases hf; rfl
        · cases hp
      rw [ih acc' out h', h2]

theorem optMStep_foldlM :
    ∀ (l : List ℕ) (B : ℤ) (V : List (List Bool)) (g : Graph),
      (∀ i ∈ l, (padBits g.N (pyBin i)).length = g.N) →
      l.foldlM optMStep ((B, V), g) = some (l.foldl (optStep g) (B, V), g) := by
  intro l
  induction l with
  | nil => intro B V g _; simp [List.foldlM_nil, List.foldl_nil]
  | cons i l ih =>
    intro B V g hlen
    rw [List.foldlM_cons, List.foldl_cons]
    have hb : (padBits g.N (pyBin i)).length = g.N := hlen i (by simp)
    have hstep : optMStep ((B, V), g) i = some (optStep g (B, V) i, g) := by
      show (g.get_score (padBits g.N (pyBin i))).map _ = _
      rw [Graph.get_score, if_pos hb]
      rfl
    rw [hstep]
    show l.foldlM optMStep (optStep g (B, V) i, g) = _
    have := ih (optStep g (B, V) i).1 (optStep g (B, V) i).2 g
      (fun j hj => hlen j (by simp [hj]))
    exact this

theorem optStep_fold_invariant (g : Graph) :
    ∀ k : ℕ, 1 ≤ k →
      (∀ i < k, cutScore g.adj (padBits g.N (pyBin i))
          ≤ ((List.range k).foldl (optStep g) (0, [])).1) ∧
      (∃ i < k, cutScore g.adj (padBits g.N (pyBin i))
          = ((List.range k).foldl (optStep g) (0, [])).1) ∧
      ((List.range k).foldl (optStep g) (0, [])).2
        = ((List.range k).filter (fun i =>
            cutScore g.adj (padBits g.N (pyBin i))
              = ((List.range k).foldl (optStep g) (0, [])).1)).map
            (fun i => padBits g.N (pyBin i)) := by
  intro k hk
  induction k with
  | zero => omega
  | succ k ih =>
    by_cases hk1 : k = 0
    · subst hk1
      have h0 : cutScore g.adj (padBits g.N (pyBin 0)) = 0 := by
        rw [padBits_zero]; exact cutScoreFrom_allfalse _ g.adj 0
      have hr1 : List.range 1 = [0] := rfl
      have hF : (List.range 1).foldl (optStep g) (0, [])
          = (0, [padBits g.N (pyBin 0)]) := by
        simp only [hr1, List.foldl_cons, List.foldl_nil, optStep, h0]
        norm_num
      refine ⟨?_, ⟨0, by omega, by rw [hF, h0]⟩, ?_⟩
      · intro i hi
        interval_cases i
        rw [hF, h0]
      · rw [hF]
        have hr1' : List.range (0 + 1) = [0] := rfl
        simp only [hr1', List.filter_cons, List.filter_nil]
        rw [if_pos (by simp [h0])]
        simp
    · have hk' : 1 ≤ k := by omega
      obtain ⟨hmax, hatt, hval⟩ := ih hk'
      have hrange : List.range (k + 1) = List.range k ++ [k] := List.range_succ k
      have hfold : (List.range (k + 1)).foldl (optStep g) (0, [])
          = optStep g ((List.range k).foldl (optStep g) (0, [])) k := by
        rw [hrange, List.foldl_append, List.foldl_cons, List.foldl_nil]
      rcases lt_trichotomy ((List.range k).foldl (optStep g) (0, [])).1
          (cutScore g.adj (padBits g.N (pyBin k))) with hlt | heq | hgt
      · -- strict improvement at index k
        have hstep : optStep g ((List.range k).foldl (optStep g) (0, [])) k
            = (cutScore g.adj (padBits g.N (pyBin k)), [padBits g.N (pyBin k)]) := by
          simp only [optStep]
          rw [if_pos hlt]
        rw [hfold, hstep]
        refine ⟨?_, ⟨k, by omega, rfl⟩, ?_⟩
        · intro i hi
          rcases Nat.lt_succ_iff_lt_or_eq.mp hi with hik | hik
          · exact le_of_lt (lt_of_le_of_lt (hmax i hik) hlt)
          · subst hik; exact le_refl _
        · rw [hrange, List.filter_append, List.filter_cons, List.filter_nil]
          rw [List.filter_eq_nil_iff.mpr (fun i hi => by
            have := hmax i (List.mem_range.mp hi)
            simp only [decide_eq_true_eq]
            omega)]
          rw [if_pos (by simp)]
          simp
      · -- tie at index k
        have hstep : optStep g ((List.range k).foldl (optStep g) (0, [])) k
            = (((List.range k).foldl (optStep g) (0, [])).1,
               ((List.range k).foldl (optStep g) (0, [])).2
                 ++ [padBits g.N (pyBin k)]) := by
          simp only [optStep]
          rw [if_neg (by omega), if_pos heq.symm]
        rw [hfold, hstep]
        refine ⟨?_, ?_, ?_⟩
        · intro i hi
          rcases Nat.lt_succ_iff_lt_or_eq.mp hi with hik | hik
          · exact hmax i hik
          · subst hik; exact le_of_eq heq.symm
        · obtain ⟨i, hik, hie⟩ := hatt
          exact ⟨i, by omega, hie⟩
        · rw [hrange, List.filter_append, List.filter_cons, List.filter_nil]
          rw [if_pos (by simp [heq])]
          simp only [List.map_append, List.map_cons, List.map_nil]
          rw [← hval]
      · -- no improvement at index k
        have hstep : optStep g ((List.range k).foldl (optStep g) (0, [])) k
            = (List.range k).foldl (optStep g) (0, []) := by
          simp only [optStep]
          rw [if_neg (by omega), if_neg (by omega)]
        rw [hfold, hstep]
        refine ⟨?_, ?_, ?_⟩
        · intro i hi
          rcases Nat.lt_succ_iff_lt_or_eq.mp hi with hik | hik
          · exact hmax i hik
          · subst hik; exact le_of_lt hgt
        · obtain ⟨i, hik, hie⟩ := hatt
          exact ⟨i, by omega, hie⟩
        · rw [hrange, List.filter_append, List.filter_cons, List.filter_nil]
          rw [if_neg (by simp; omega)]
          simp only [List.append_nil]
          exact hval

/-! ## Claim C4: correctness of `optimal_score` -/

/-- C4.  For every well-formed graph with `N ≥ 1` vertices, `optimal_score`
returns (without touching the graph state) the maximum of `score` over all
`2^N` length-`N` bitstrings, together with the list of exactly those
examined bitstrings (indices `0 ≤ i < ceil(2^N/2)`) that attain it;
examining only the first half suffices because complementary assignments
score identically. -/
theorem optimal_score_correct (g : Graph) (hwf : WFGraph g) (hN : 1 ≤ g.N) :
    ∃ best vals, g.optimal_score = some ((best, vals), g) ∧
      (∀ b : List Bool, b.length = g.N → cutScore g.adj b ≤ best) ∧
      (∃ b : List Bool, b.length = g.N ∧ cutScore g.adj b = best) ∧
      vals = ((List.range ((2 ^ g.N + 1) / 2)).filter (fun i =>
          cutScore g.adj (padBits g.N (pyBin i)) = best)).map
          (fun i => padBits g.N (pyBin i)) := by
  have hm : (2 ^ g.N + 1) / 2 = 2 ^ (g.N - 1) := by
    have h2 : 2 ^ g.N = 2 * 2 ^ (g.N - 1) := by
      conv_lhs => rw [show g.N = (g.N - 1) + 1 from by omega]
      rw [pow_succ]; ring
    omega
  have hlen : ∀ i ∈ List.range ((2 ^ g.N + 1) / 2),
      (padBits g.N (pyBin i)).length = g.N := by
    intro i hi
    rw [List.mem_range, hm] at hi
    exact padBits_length _ _ (pyBin_length_le i g.N hN hi)
  have hos : g.optimal_score
      = some ((List.range ((2 ^ g.N + 1) / 2)).foldl (optStep g) (0, []), g) := by
    rw [optimal_score_eq_foldlM]
    exact optMStep_foldlM _ 0 [] g hlen
  have hm1 : 1 ≤ (2 ^ g.N + 1) / 2 := by
    rw [hm]
    exact Nat.one_le_two_pow
  obtain ⟨hmax, hatt, hval⟩ := optStep_fold_invariant g ((2 ^ g.N + 1) / 2) hm1
  refine ⟨_, _, hos, ?_, ?_, hval⟩
  · intro b hb
    match b, hb with
    | [], hb => simp at hb; omega
    | (a :: r), hb =>
      cases a
      · have h1 : bitsVal (false :: r) = bitsVal r := by simp [bitsVal]
        have h2 := bitsVal_lt r
        have h3 : r.length = g.N - 1 := by
          simp only [List.length_cons] at hb; omega
        have hvlt : bitsVal (false :: r) < (2 ^ g.N + 1) / 2 := by
          rw [hm, h1, ← h3]; exact h2
        have hpad := padBits_pyBin_bitsVal g.N hN (false :: r) hb
        have := hmax (bitsVal (false :: r)) hvlt
        rwa [hpad] at this
      · have hcomp : cutScore g.adj ((true :: r).map not) = cutScore g.adj (true :: r) :=
          cutScore_map_not g hwf (true :: r) hb
        have hlen2 : ((true :: r).map not).length = g.N := by simpa using hb
        have hmap : (true :: r).map not = false :: r.map not := by simp
        have hvlt : bitsVal ((true :: r).map not) < (2 ^ g.N + 1) / 2 := by
          rw [hmap]
          have h1 : bitsVal (false :: r.map not) = bitsVal (r.map not) := by
            simp [bitsVal]
          have h2 := bitsVal_lt (r.map not)
          have h3 : (r.map not).length = g.N - 1 := by
            simp only [List.length_map]
            simp only [List.length_cons] at hb; omega
          rw [hm, h1, ← h3]; exact h2
        have hpad := padBits_pyBin_bitsVal g.N hN ((true :: r).map not) hlen2
        have := hmax (bitsVal ((true :: r).map not)) hvlt
        rw [hpad, hcomp] at this
        exact this
  · obtain ⟨i, hik, hie⟩ := hatt
    exact ⟨padBits g.N (pyBin i), hlen i (List.mem_range.mpr hik), hie⟩

/-- C4 witness: the theorem applied to the concrete 3-vertex graph. -/
theorem optimal_score_correct_witness :
    WFGraph gEx ∧ 1 ≤ gEx.N ∧
      ∃ best vals, gEx.optimal_score = some ((best, vals), gEx) ∧
        (∀ b : List Bool, b.length = gEx.N → cutScore gEx.adj b ≤ best) ∧
        (∃ b : List Bool, b.length = gEx.N ∧ cutScore gEx.adj b = best) ∧
        vals = ((List.range ((2 ^ gEx.N + 1) / 2)).filter (fun i =>
            cutScore gEx.adj (padBits gEx.N (pyBin i)) = best)).map
            (fun i => padBits gEx.N (pyBin i)) :=
  ⟨by decide, by decide, optimal_score_correct gEx (by decide) (by decide)⟩

/-! ## Claim C10: `optimal_score` leaves the graph unchanged -/

/-- C10.  Whenever `optimal_score` returns, the graph it hands back is the
very graph it was called on: the exact benchmark scores its candidates
through `get_score` only and never touches `currentScore`, `currentBest`,
`runs`, or the topology `N`, `E`, `adj`. -/
theorem optimal_score_frame (g : Graph) (r : ℤ × List (List Bool)) (g' : Graph)
    (h : g.optimal_score = some (r, g')) : g' = g := by
  have h' : (List.range ((2 ^ g.N + 1) / 2)).foldlM optMStep ((0, []), g)
      = some (r, g') := by
    rw [← optimal_score_eq_foldlM]; exact h
  exact optMStep_state _ _ _ h'

/-- C10 witness: on the concrete 3-vertex graph, `optimal_score` returns and
the returned state is unchanged. -/
theorem optimal_score_frame_witness :
    gEx.optimal_score = some ((8, [[false, true, false]]), gEx) ∧ gEx = gEx :=
  ⟨by decide, optimal_score_frame gEx (8, [[false, true, false]]) gEx (by decide)⟩

/-! ## Claim C9: the concrete 3-vertex scenario -/

/-- C9.  On the 3-vertex graph with exactly the edges `(0,1)` of weight 5
and `(1,2)` of weight 3 (built by two `add_edge` calls), `score` returns
0 for `"000"`, 8 for `"010"`, 5 for `"100"`, 3 for `"001"`, 5 for `"011"`,
3 for `"110"`, and `optimal_score` returns `(8, ["010"])`, `"010"` being
the only maximizer among the examined half. -/
theorem concrete_scenario_scores :
    ((Graph.init 3).add_edge 0 1 5).bind (fun h => h.add_edge 1 2 3) = some gEx ∧
    gEx.get_score [false, false, false] = some (0, gEx) ∧
    gEx.get_score [false, true, false] = some (8, gEx) ∧
    gEx.get_score [true, false, false] = some (5, gEx) ∧
    gEx.get_score [false, false, true] = some (3, gEx) ∧
    gEx.get_score [false, true, true] = some (5, gEx) ∧
    gEx.get_score [true, true, false] = some (3, gEx) ∧
    gEx.optimal_score = some ((8, [[false, true, false]]), gEx) := by
  decide

/-! ## Claim C6: `score` on a wrong-length bitstring fails -/

/-- C6.  For every bitstring whose length differs from the graph's vertex
count `N`, `get_score` fails (the `assert` raises, modelled by `none`). -/
theorem get_score_wrong_length (g : Graph) (b : List Bool)
    (h : b.length ≠ g.N) : g.get_score b = none := by
  simp [Graph.get_score, h]

/-- C6 witness: `score([0,1])` on the 3-vertex graph fails. -/
theorem get_score_wrong_length_witness :
    ([false, true] : List Bool).length ≠ gEx.N ∧
      gEx.get_score [false, true] = none :=
  ⟨by decide, get_score_wrong_length gEx [false, true] (by decide)⟩

/-! ## Claim C7: cut symmetry under global bit-flip -/

/-- C7.  For every well-formed graph and every length-`N` bitstring `b`,
`score` of the bitwise complement of `b` equals `score b`. -/
theorem get_score_complement_invariant (g : Graph) (hwf : WFGraph g)
    (b : List Bool) (hb : b.length = g.N) :
    g.get_score (b.map not) = g.get_score b := by
  have hlen : (b.map not).length = g.N := by simpa using hb
  rw [Graph.get_score, Graph.get_score, if_pos hlen, if_pos hb,
    cutScore_map_not g hwf b hb]

/-- C7 witness: complement symmetry on the concrete graph at `"101"`. -/
theorem get_score_complement_invariant_witness :
    WFGraph gEx ∧ ([true, false, true] : List Bool).length = gEx.N ∧
      gEx.get_score ([true, false, true].map not)
        = gEx.get_score [true, false, true] :=
  ⟨by decide, by decide,
    get_score_complement_invariant gEx (by decide) [true, false, true] (by decide)⟩

/-! ## Association-list and adjacency update lemmas -/

theorem lookup_upsert_self (v : ℕ) (w : ℤ) :
    ∀ l : List (ℕ × ℤ), (upsert v w l).lookup v = some w := by
  intro l
  induction l with
  | nil => simp [upsert, List.lookup]
  | cons p rest ih =>
    obtain ⟨pk, pw⟩ := p
    by_cases hp : pk = v
    · simp [upsert, hp, List.lookup_cons]
    · have hbeq : (v == pk) = false :=
        beq_eq_false_iff_ne.mpr (fun h => hp h.symm)
      have hup : upsert v w ((pk, pw) :: rest) = (pk, pw) :: upsert v w rest := by
        simp [upsert, hp]
      rw [hup, List.lookup_cons, hbeq]
      exact ih

theorem lookup_upsert_ne (v : ℕ) (w : ℤ) (v' : ℕ) (hne : v' ≠ v) :
    ∀ l : List (ℕ × ℤ), (upsert v w l).lookup v' = l.lookup v' := by
  intro l
  induction l with
  | nil =>
    have hbeq : (v' == v) = false := beq_eq_false_iff_ne.mpr hne
    simp [upsert, List.lookup, List.lookup_cons, hbeq]
  | cons p rest ih =>
    obtain ⟨pk, pw⟩ := p
    by_cases hp : pk = v
    · subst hp
      have hbeq : (v' == pk) = false := beq_eq_false_iff_ne.mpr hne
      have hup : upsert pk w ((pk, pw) :: rest) = (pk, w) :: rest := by
        simp [upsert]
      rw [hup, List.lookup_cons, List.lookup_cons, hbeq]
    · have hup : upsert v w ((pk, pw) :: rest) = (pk, pw) :: upsert v w rest := by
        simp [upsert, hp]
      rw [hup, List.lookup_cons, List.lookup_cons]
      cases hb : v' == pk
      · exact ih
      · rfl

theorem getD_set_self :
    ∀ (adj : List (List (ℕ × ℤ))) (u : ℕ) (row : List (ℕ × ℤ)),
      u < adj.length → (adj.set u row).getD u [] = row := by
  intro adj
  induction adj with
  | nil => intro u row h; simp at h
  | cons a rest ih =>
    intro u row h
    cases u with
    | zero => rfl
    | succ u =>
      show (rest.set u row).getD u [] = row
      exact ih u row (by simp at h; omega)

theorem getD_set_ne :
    ∀ (adj : List (List (ℕ × ℤ))) (u u' : ℕ) (row : List (ℕ × ℤ)),
      u ≠ u' → (adj.set u row).getD u' [] = adj.getD u' [] := by
  intro adj
  induction adj with
  | nil => intro u u' row _; rfl
  | cons a rest ih =>
    intro u u' row hne
    cases u with
    | zero =>
      cases u' with
      | zero => exact absurd rfl hne
      | succ u' => rfl
    | succ u =>
      cases u' with
      | zero => rfl
      | succ u' =>
        show (rest.set u row).getD u' [] = rest.getD u' []
        exact ih u u' row (by omega)

theorem upsert_length (v : ℕ) (w : ℤ) :
    ∀ l : List (ℕ × ℤ),
      (upsert v w l).length
        = if (l.lookup v).isSome then l.length else l.length + 1 := by
  intro l
  induction l with
  | nil => simp [upsert, List.lookup]
  | cons p rest ih =>
    obtain ⟨pk, pw⟩ := p
    by_cases hp : pk = v
    · have hbeq : (v == pk) = true := beq_iff_eq.mpr hp.symm
      have hup : upsert v w ((pk, pw) :: rest) = (v, w) :: rest := by
        simp [upsert, hp]
      rw [hup, List.lookup_cons, hbeq]
      rfl
    · have hbeq : (v == pk) = false :=
        beq_eq_false_iff_ne.mpr (fun h => hp h.symm)
      have hup : upsert v w ((pk, pw) :: rest) = (pk, pw) :: upsert v w rest := by
        simp [upsert, hp]
      rw [hup, List.lookup_cons, hbeq, List.length_cons, List.length_cons, ih]
      split
      · rfl
      · rfl

theorem sum_length_set :
    ∀ (adj : List (List (ℕ × ℤ))) (u : ℕ) (row : List (ℕ × ℤ)),
      u < adj.length →
      ((adj.set u row).map List.length).sum + (adj.getD u []).length
        = (adj.map List.length).sum + row.length := by
  intro adj
  induction adj with
  | nil => intro u row h; simp at h
  | cons a rest ih =>
    intro u row h
    cases u with
    | zero =>
      show (row.length + (rest.map List.length).sum) + a.length
          = (a.length + (rest.map List.length).sum) + row.length
      omega
    | succ u =>
      have := ih u row (by simp at h; omega)
      show (a.length + ((rest.set u row).map List.length).sum) + (rest.getD u []).length
          = (a.length + (rest.map List.length).sum) + row.length
      omega

/-- Everything one `add_edge` call does, in terms of `lookupW` and the
entry count (shared by the C2 and C3 developments). -/
theorem add_edge_spec (g : Graph) (u v : ℕ) (w : ℤ)
    (hu : u < g.adj.length) :
    ∃ g', g.add_edge u v w = some g' ∧ g'.N = g.N ∧ g'.E = g.E + 1 ∧
      g'.adj.length = g.adj.length ∧
      lookupW g' u v = some w ∧
      (∀ u' v', (u', v') ≠ (u, v) → lookupW g' u' v' = lookupW g u' v') ∧
      totalEntries g'
        = totalEntries g + (if (lookupW g u v).isSome then 0 else 1) := by
  have hadd : g.add_edge u v w
      = some { g with E := g.E + 1,
                      adj := g.adj.set u (upsert v w (g.adj.getD u [])) } := by
    rw [Graph.add_edge, if_pos hu]
  refine ⟨_, hadd, rfl, rfl, by simp, ?_, ?_, ?_⟩
  · show ((g.adj.set u (upsert v w (g.adj.getD u []))).getD u []).lookup v = some w
    rw [getD_set_self g.adj u _ hu, lookup_upsert_self]
  · intro u' v' hne
    by_cases huu : u' = u
    · subst huu
      have hvv : v' ≠ v := by
        intro h; exact hne (by rw [h])
      show ((g.adj.set u' _).getD u' []).lookup v' = _
      rw [getD_set_self g.adj u' _ hu, lookup_upsert_ne v w v' hvv]
      rfl
    · show ((g.adj.set u _).getD u' []).lookup v' = _
      rw [getD_set_ne g.adj u u' _ (fun h => huu h.symm)]
      rfl
  · show ((g.adj.set u (upsert v w (g.adj.getD u []))).map List.length).sum = _
    have hs := sum_length_set g.adj u (upsert v w (g.adj.getD u [])) hu
    have hl := upsert_length v w (g.adj.getD u [])
    unfold totalEntries lookupW
    by_cases hlook : ((g.adj.getD u []).lookup v).isSome
    · rw [if_pos hlook] at hl ⊢
      omega
    · rw [if_neg hlook] at hl ⊢
      omega

/-! ## Claim C2 (corrected): `add_edge` performs no validation -/

/-- C2 counterexample: contrary to the claim, `add_edge(0,1,-1)` and
`add_edge(0,0,5)` both *succeed* on a fresh 3-vertex graph — the source
method contains no argument validation — storing a non-positive weight and
a self-loop respectively (and incrementing the edge counter each time). -/
theorem add_edge_invalid_args_cex :
    (Graph.init 3).add_edge 0 1 (-1)
        = some ⟨3, 1, [[(1, -1)], [], []], ⊥, [], []⟩ ∧
      (Graph.init 3).add_edge 0 0 5
        = some ⟨3, 1, [[(0, 5)], [], []], ⊥, [], []⟩ := by
  decide

/-- C2 amended claim: for every `u < N`, `add_edge(u, v, weight)` succeeds
regardless of `u == v` or of the sign of the weight (no `InvalidArgument`
is ever raised): it increments the edge counter, stores `weight` for the
ordered pair `(u, v)`, and leaves every other ordered pair unchanged. -/
theorem add_edge_no_validation (g : Graph) (u v : ℕ) (w : ℤ)
    (hu : u < g.adj.length) :
    ∃ g', g.add_edge u v w = some g' ∧ g'.N = g.N ∧ g'.E = g.E + 1 ∧
      lookupW g' u v = some w ∧
      ∀ u' v', (u', v') ≠ (u, v) → lookupW g' u' v' = lookupW g u' v' := by
  obtain ⟨g', hadd, hN, hE, _, hself, hframe, _⟩ := add_edge_spec g u v w hu
  exact ⟨g', hadd, hN, hE, hself, hframe⟩

/-- C2 witness: the amended claim at `add_edge(0,0,5)` on a 3-vertex graph. -/
theorem add_edge_no_validation_witness :
    0 < (Graph.init 3).adj.length ∧
      ∃ g', (Graph.init 3).add_edge 0 0 5 = some g' ∧
        g'.N = (Graph.init 3).N ∧ g'.E = (Graph.init 3).E + 1 ∧
        lookupW g' 0 0 = some 5 ∧
        ∀ u' v', (u', v') ≠ (0, 0) →
          lookupW g' u' v' = lookupW (Graph.init 3) u' v' :=
  ⟨by decide, add_edge_no_validation (Graph.init 3) 0 0 5 (by decide)⟩

/-! ## Claim C3 (corrected): the edge counter vs. stored entries -/

/-- C3 counterexample: adding the same ordered pair twice (the overwrite
case the claim explicitly includes) breaks the invariant — after
`add_edge(0,1,5); add_edge(0,1,7)` on a fresh 2-vertex graph the counter
`E` is 2 while the neighbour maps hold a single entry. -/
theorem edge_counter_duplicate_cex :
    ((Graph.init 2).add_edge 0 1 5).bind (fun h => h.add_edge 0 1 7)
        = some gDup ∧
      gDup.E = 2 ∧ totalEntries gDup = 1 ∧ gDup.E ≠ totalEntries gDup := by
  decide

theorem addEdges_spec :
    ∀ (es : List (ℕ × ℕ × ℤ)) (g : Graph),
      (∀ e ∈ es, e.1 < g.adj.length) →
      (∀ e ∈ es, lookupW g e.1 e.2.1 = none) →
      (es.map (fun e => (e.1, e.2.1))).Nodup →
      ∃ h, addEdges g es = some h ∧ h.E = g.E + es.length ∧
        totalEntries h = totalEntries g + es.length := by
  intro es
  induction es with
  | nil => intro g _ _ _; exact ⟨g, rfl, by simp, by simp⟩
  | cons e rest ih =>
    intro g hbound habsent hnodup
    obtain ⟨g1, hg1, _, hE, hlen, hself, hframe, hTE⟩ :=
      add_edge_spec g e.1 e.2.1 e.2.2 (hbound e (by simp))
    have habs : lookupW g e.1 e.2.1 = none := habsent e (by simp)
    rw [habs] at hTE
    simp only [Option.isSome_none, Bool.false_eq_true, if_false] at hTE
    have hbound1 : ∀ e' ∈ rest, e'.1 < g1.adj.length := by
      intro e' he'
      rw [hlen]
      exact hbound e' (by simp [he'])
    rw [List.map_cons, List.nodup_cons] at hnodup
    have habsent1 : ∀ e' ∈ rest, lookupW g1 e'.1 e'.2.1 = none := by
      intro e' he'
      have hne : (e'.1, e'.2.1) ≠ (e.1, e.2.1) := by
        intro hcontra
        exact hnodup.1 (by
          rw [← hcontra]
          exact List.mem_map_of_mem (fun e => (e.1, e.2.1)) he')
      rw [hframe e'.1 e'.2.1 hne]
      exact habsent e' (by simp [he'])
    have hnodup1 : (rest.map (fun e => (e.1, e.2.1))).Nodup := hnodup.2
    obtain ⟨h, hh, hhE, hhTE⟩ := ih g1 hbound1 habsent1 hnodup1
    refine ⟨h, ?_, by rw [hhE, hE, List.length_cons]; omega,
      by rw [hhTE, hTE, List.length_cons]; omega⟩
    show (g.add_edge e.1 e.2.1 e.2.2).bind (fun h1 => rest.foldlM _ h1) = some h
    rw [hg1]
    exact hh

/-- C3 amended claim: for every graph built from a fresh construction by a
sequence of `add_edge` calls whose ordered pairs are pairwise distinct
(each `u` in range), the edge counter `E` equals the total number of
entries across all vertices' neighbour maps (both equal the number of
calls).  Repeating an ordered pair overwrites its weight without error but
still increments `E`, breaking the equality (see the counterexample). -/
theorem edge_counter_consistent (n : ℕ) (es : List (ℕ × ℕ × ℤ))
    (hu : ∀ e ∈ es, e.1 < n)
    (hnd : (es.map (fun e => (e.1, e.2.1))).Nodup) :
    ∃ g, addEdges (Graph.init n) es = some g ∧
      g.E = es.length ∧ totalEntries g = es.length ∧
      g.E = totalEntries g := by
  have h1 : ∀ e ∈ es, e.1 < (Graph.init n).adj.length := by
    intro e he
    show e.1 < (List.replicate n ([] : List (ℕ × ℤ))).length
    rw [List.length_replicate]
    exact hu e he
  have h2 : ∀ e ∈ es, lookupW (Graph.init n) e.1 e.2.1 = none := by
    intro e _
    show ((List.replicate n ([] : List (ℕ × ℤ))).getD e.1 []).lookup e.2.1 = none
    rw [List.getD_eq_getElem?_getD, List.getElem?_replicate]
    split <;> rfl
  obtain ⟨g, hg, hE, hTE⟩ := addEdges_spec es (Graph.init n) h1 h2 hnd
  refine ⟨g, hg, ?_, ?_, ?_⟩
  · rw [hE]
    show 0 + es.length = es.length
    omega
  · rw [hTE]
    show (List.map List.length (List.replicate n ([] : List (ℕ × ℤ)))).sum
        + es.length = es.length
    rw [List.map_replicate]
    simp
  · rw [hE, hTE]
    show 0 + es.length
        = (List.map List.length (List.replicate n ([] : List (ℕ × ℤ)))).sum
            + es.length
    rw [List.map_replicate]
    simp

/-- C3 witness: the amended claim on two distinct ordered pairs. -/
theorem edge_counter_consistent_witness :
    (∀ e ∈ [((0 : ℕ), (1 : ℕ), (5 : ℤ)), (1, 0, 7)], e.1 < 2) ∧
      (([((0 : ℕ), (1 : ℕ), (5 : ℤ)), (1, 0, 7)].map
          (fun e => (e.1, e.2.1))).Nodup) ∧
      ∃ g, addEdges (Graph.init 2) [(0, 1, 5), (1, 0, 7)] = some g ∧
        g.E = [((0 : ℕ), (1 : ℕ), (5 : ℤ)), (1, 0, 7)].length ∧
        totalEntries g = [((0 : ℕ), (1 : ℕ), (5 : ℤ)), (1, 0, 7)].length ∧
        g.E = totalEntries g :=
  ⟨by decide, by decide,
    edge_counter_consistent 2 [(0, 1, 5), (1, 0, 7)] (by decide) (by decide)⟩

/-! ## Claim C5: `update_score` is monotonic best-tracking -/

theorem foldl_max_init_le (f : List Bool → WithBot ℤ) :
    ∀ (l : List (List Bool)) (M : WithBot ℤ),
      M ≤ l.foldl (fun acc x => max acc (f x)) M := by
  intro l
  induction l with
  | nil => intro M; exact le_refl M
  | cons x rest ih =>
    intro M
    exact le_trans (le_max_left M (f x)) (ih (max M (f x)))

theorem foldl_max_mem_le (f : List Bool → WithBot ℤ) :
    ∀ (l : List (List Bool)) (M : WithBot ℤ) (b : List Bool), b ∈ l →
      f b ≤ l.foldl (fun acc x => max acc (f x)) M := by
  intro l
  induction l with
  | nil => intro M b hb; cases hb
  | cons x rest ih =>
    intro M b hb
    rcases List.mem_cons.mp hb with hbx | hbr
    · subst hbx
      exact le_trans (le_max_right M (f b)) (foldl_max_init_le f rest (max M (f b)))
    · exact ih (max M (f x)) b hbr

theorem update_score_eq (g : Graph) (b : List Bool) (hb : b.length = g.N) :
    g.update_score b = some (cutScore g.adj b,
      if ((cutScore g.adj b : ℤ) : WithBot ℤ) > g.currentScore then
        { g with currentScore := ((cutScore g.adj b : ℤ) : WithBot ℤ),
                 currentBest := b }
      else g) := by
  rw [Graph.update_score, Graph.get_score, if_pos hb]
  rfl

theorem runUpdates_spec :
    ∀ (bs : List (List Bool)) (g : Graph), (∀ b ∈ bs, b.length = g.N) →
      ∃ h, runUpdates g bs = some h ∧ h.N = g.N ∧ h.E = g.E ∧
        h.adj = g.adj ∧ h.runs = g.runs ∧
        h.currentScore = bs.foldl
          (fun M x => max M ((cutScore g.adj x : ℤ) : WithBot ℤ))
          g.currentScore ∧
        ((h.currentBest = g.currentBest ∧ h.currentScore = g.currentScore) ∨
          (h.currentBest ∈ bs ∧
            ((cutScore g.adj h.currentBest : ℤ) : WithBot ℤ) = h.currentScore)) := by
  intro bs
  induction bs with
  | nil =>
    intro g _
    exact ⟨g, rfl, rfl, rfl, rfl, rfl, rfl, Or.inl ⟨rfl, rfl⟩⟩
  | cons b rest ih =>
    intro g hlen
    have hb : b.length = g.N := hlen b (by simp)
    set g1 := if ((cutScore g.adj b : ℤ) : WithBot ℤ) > g.currentScore then
        { g with currentScore := ((cutScore g.adj b : ℤ) : WithBot ℤ),
                 currentBest := b }
      else g with hg1def
    have hstep : (g.update_score b).map Prod.snd = some g1 := by
      rw [update_score_eq g b hb]
      rfl
    have hg1N : g1.N = g.N := by rw [hg1def]; split <;> rfl
    have hg1E : g1.E = g.E := by rw [hg1def]; split <;> rfl
    have hg1adj : g1.adj = g.adj := by rw [hg1def]; split <;> rfl
    have hg1runs : g1.runs = g.runs := by rw [hg1def]; split <;> rfl
    have hg1score : g1.currentScore
        = max g.currentScore ((cutScore g.adj b : ℤ) : WithBot ℤ) := by
      rw [hg1def]
      by_cases hc : ((cutScore g.adj b : ℤ) : WithBot ℤ) > g.currentScore
      · rw [if_pos hc]
        exact (max_eq_right (le_of_lt hc)).symm
      · rw [if_neg hc]
        exact (max_eq_left (not_lt.mp hc)).symm
    have hg1best : (g1.currentBest = g.currentBest
          ∧ g1.currentScore = g.currentScore) ∨
        (g1.currentBest = b ∧
          g1.currentScore = ((cutScore g.adj b : ℤ) : WithBot ℤ)) := by
      rw [hg1def]
      by_cases hc : ((cutScore g.adj b : ℤ) : WithBot ℤ) > g.currentScore
      · rw [if_pos hc]; right; exact ⟨rfl, rfl⟩
      · rw [if_neg hc]; left; exact ⟨rfl, rfl⟩
    obtain ⟨h, hrun, hN, hE, hadj, hruns, hscore, hbest⟩ :=
      ih g1 (fun b' hb' => by rw [hg1N]; exact hlen b' (by simp [hb']))
    refine ⟨h, ?_, by rw [hN, hg1N], by rw [hE, hg1E], by rw [hadj, hg1adj],
      by rw [hruns, hg1runs], ?_, ?_⟩
    · show ((g.update_score b).map Prod.snd) >>= (fun h1 =>
        rest.foldlM (fun h2 b2 => (h2.update_score b2).map Prod.snd) h1) = some h
      rw [hstep]
      exact hrun
    · rw [hscore, hg1adj, hg1score, List.foldl_cons]
    · rcases hbest with ⟨hbb, hbs⟩ | ⟨hmem, hsc⟩
      · rcases hg1best with ⟨hb1, hs1⟩ | ⟨hb1, hs1⟩
        · left
          exact ⟨by rw [hbb, hb1], by rw [hbs, hs1]⟩
        · right
          refine ⟨by rw [hbb, hb1]; exact List.mem_cons_self b rest, ?_⟩
          rw [hbb, hb1, hbs, hs1]
      · right
        refine ⟨List.mem_cons_of_mem b hmem, ?_⟩
        rw [hg1adj] at hsc
        exact hsc

/-- C5.  Starting from a graph whose `currentScore` is `-inf` (fresh or
just cleared), after any non-empty sequence of `update_score` calls on
valid bitstrings: every passed bitstring scores at most `currentScore`,
`currentBest` is one of the passed bitstrings, its score equals
`currentScore` (so `currentScore` is the attained maximum of the passed
scores), and every single `update_score` call returns the score of its
argument whether or not it was a new best. -/
theorem update_score_monotonic (g : Graph) (bs : List (List Bool))
    (hlen : ∀ b ∈ bs, b.length = g.N) (h0 : g.currentScore = ⊥)
    (hne : bs ≠ []) :
    (∀ (g' : Graph) (b : List Bool), b.length = g'.N →
        (g'.update_score b).map Prod.fst = some (cutScore g'.adj b)) ∧
      ∃ h, runUpdates g bs = some h ∧
        (∀ b ∈ bs, ((cutScore g.adj b : ℤ) : WithBot ℤ) ≤ h.currentScore) ∧
        h.currentBest ∈ bs ∧
        ((cutScore g.adj h.currentBest : ℤ) : WithBot ℤ) = h.currentScore := by
  constructor
  · intro g' b hb
    rw [update_score_eq g' b hb]
    rfl
  · obtain ⟨h, hrun, _, _, _, _, hscore, hbest⟩ := runUpdates_spec bs g hlen
    have hall : ∀ b ∈ bs, ((cutScore g.adj b : ℤ) : WithBot ℤ) ≤ h.currentScore := by
      intro b hb
      rw [hscore]
      exact foldl_max_mem_le (fun x => ((cutScore g.adj x : ℤ) : WithBot ℤ))
        bs g.currentScore b hb
    refine ⟨h, hrun, hall, ?_⟩
    match bs, hne, hlen, hall, hbest with
    | b0 :: rest, _, hlen, hall, hbest =>
      have hpos : (⊥ : WithBot ℤ) < h.currentScore :=
        lt_of_lt_of_le (WithBot.bot_lt_coe _) (hall b0 (by simp))
      rcases hbest with ⟨_, hbs⟩ | ⟨hmem, hsc⟩
      · rw [hbs, h0] at hpos
        exact absurd hpos (lt_irrefl _)
      · exact ⟨hmem, hsc⟩

/-- C5 witness: two valid updates on the concrete graph. -/
theorem update_score_monotonic_witness :
    (∀ b ∈ ([[false, true, false], [false, false, true]] : List (List Bool)),
        b.length = gEx.N) ∧ gEx.currentScore = ⊥ ∧
      ([[false, true, false], [false, false, true]] : List (List Bool)) ≠ [] ∧
      ((∀ (g' : Graph) (b : List Bool), b.length = g'.N →
          (g'.update_score b).map Prod.fst = some (cutScore g'.adj b)) ∧
        ∃ h, runUpdates gEx [[false, true, false], [false, false, true]]
            = some h ∧
          (∀ b ∈ ([[false, true, false], [false, false, true]] :
              List (List Bool)),
            ((cutScore gEx.adj b : ℤ) : WithBot ℤ) ≤ h.currentScore) ∧
          h.currentBest ∈ ([[false, true, false], [false, false, true]] :
              List (List Bool)) ∧
          ((cutScore gEx.adj h.currentBest : ℤ) : WithBot ℤ)
            = h.currentScore) :=
  ⟨by decide, by decide, by decide,
    update_score_monotonic gEx [[false, true, false], [false, false, true]]
      (by decide) (by decide) (by decide)⟩

/-! ## Claim C8: `clear_runs` restores fresh-graph behaviour -/

theorem applyOp_agree (g1 g2 : Graph) (hA : Agree g1 g2) (op : EvalOp) :
    (applyOp g1 op = none ∧ applyOp g2 op = none) ∨
      ∃ h1 h2, applyOp g1 op = some h1 ∧ applyOp g2 op = some h2 ∧
        Agree h1 h2 := by
  obtain ⟨hN, hadj, hsc, hbb, hruns⟩ := hA
  cases op with
  | upd b =>
    by_cases hb : b.length = g1.N
    · right
      have hb2 : b.length = g2.N := by rw [← hN]; exact hb
      refine ⟨_, _, by rw [show applyOp g1 (EvalOp.upd b)
          = (g1.update_score b).map Prod.snd from rfl,
          update_score_eq g1 b hb]; rfl,
        by rw [show applyOp g2 (EvalOp.upd b)
          = (g2.update_score b).map Prod.snd from rfl,
          update_score_eq g2 b hb2]; rfl, ?_⟩
      have hsceq : cutScore g1.adj b = cutScore g2.adj b := by rw [hadj]
      by_cases hcond : ((cutScore g1.adj b : ℤ) : WithBot ℤ) > g1.currentScore
      · have hcond2 : ((cutScore g2.adj b : ℤ) : WithBot ℤ) > g2.currentScore := by
          rw [← hsceq, ← hsc]; exact hcond
        rw [if_pos hcond, if_pos hcond2]
        refine ⟨hN, hadj, ?_, rfl, hruns⟩
        show ((cutScore g1.adj b : ℤ) : WithBot ℤ)
            = ((cutScore g2.adj b : ℤ) : WithBot ℤ)
        rw [hsceq]
      · have hcond2 : ¬ ((cutScore g2.adj b : ℤ) : WithBot ℤ) > g2.currentScore := by
          rw [← hsceq, ← hsc]; exact hcond
        rw [if_neg hcond, if_neg hcond2]
        exact ⟨hN, hadj, hsc, hbb, hruns⟩
    · left
      have hb2 : ¬ b.length = g2.N := by rw [← hN]; exact hb
      constructor
      · show (g1.update_score b).map Prod.snd = none
        rw [Graph.update_score, Graph.get_score, if_neg hb]
        rfl
      · show (g2.update_score b).map Prod.snd = none
        rw [Graph.update_score, Graph.get_score, if_neg hb2]
        rfl
  | addRun γ β e =>
    right
    refine ⟨_, _, rfl, rfl, ?_⟩
    exact ⟨hN, hadj, hsc, hbb, by
      show g1.runs ++ _ = g2.runs ++ _
      rw [hruns]⟩

theorem trajectory_agree :
    ∀ (ops : List EvalOp) (g1 g2 : Graph), Agree g1 g2 →
      trajectory g1 ops = trajectory g2 ops := by
  intro ops
  induction ops with
  | nil => intro g1 g2 _; rfl
  | cons op rest ih =>
    intro g1 g2 hA
    rcases applyOp_agree g1 g2 hA op with ⟨h1n, h2n⟩ | ⟨h1, h2, hs1, hs2, hA'⟩
    · show (applyOp g1 op).bind _ = (applyOp g2 op).bind _
      rw [h1n, h2n]
    · show (applyOp g1 op).bind _ = (applyOp g2 op).bind _
      rw [hs1, hs2]
      show (trajectory h1 rest).map _ = (trajectory h2 rest).map _
      rw [ih h1 h2 hA', hA'.2.2.1]

theorem runOps_agree :
    ∀ (ops : List EvalOp) (g1 g2 : Graph), Agree g1 g2 →
      (runOps g1 ops = none ∧ runOps g2 ops = none) ∨
        ∃ h1 h2, runOps g1 ops = some h1 ∧ runOps g2 ops = some h2 ∧
          Agree h1 h2 := by
  intro ops
  induction ops with
  | nil => intro g1 g2 hA; exact Or.inr ⟨g1, g2, rfl, rfl, hA⟩
  | cons op rest ih =>
    intro g1 g2 hA
    rcases applyOp_agree g1 g2 hA op with ⟨h1n, h2n⟩ | ⟨h1, h2, hs1, hs2, hA'⟩
    · left
      constructor
      · show (applyOp g1 op).bind _ = none
        rw [h1n]
        rfl
      · show (applyOp g2 op).bind _ = none
        rw [h2n]
        rfl
    · have e1 : runOps g1 (op :: rest) = runOps h1 rest := by
        show (applyOp g1 op).bind _ = _
        rw [hs1]
        rfl
      have e2 : runOps g2 (op :: rest) = runOps h2 rest := by
        show (applyOp g2 op).bind _ = _
        rw [hs2]
        rfl
      rw [e1, e2]
      exact ih h1 h2 hA'

/-- C8.  `clear_runs` resets `currentScore` to `-inf`, `currentBest` and
`runs` to empty; afterwards any evaluation sequence (`update_score` /
`add_run` calls) produces the same `currentScore` trajectory and the same
final run history as the identical sequence run on a freshly constructed
graph with the same topology. -/
theorem clear_runs_fresh_equiv (g g0 : Graph) (hN : g0.N = g.N)
    (hadj : g0.adj = g.adj) (hs : g0.currentScore = ⊥)
    (hb : g0.currentBest = []) (hr : g0.runs = []) (ops : List EvalOp) :
    g.clear_runs.currentScore = ⊥ ∧ g.clear_runs.currentBest = [] ∧
      g.clear_runs.runs = [] ∧
      trajectory g.clear_runs ops = trajectory g0 ops ∧
      (runOps g.clear_runs ops).map Graph.runs
        = (runOps g0 ops).map Graph.runs := by
  have hA : Agree g.clear_runs g0 := ⟨hN.symm, hadj.symm, hs.symm, hb.symm, hr.symm⟩
  refine ⟨rfl, rfl, rfl, trajectory_agree ops _ _ hA, ?_⟩
  rcases runOps_agree ops _ _ hA with ⟨h1, h2⟩ | ⟨h1, h2, e1, e2, hA'⟩
  · rw [h1, h2]
  · rw [e1, e2]
    show some h1.runs = some h2.runs
    rw [hA'.2.2.2.2]

/-- C8 witness: a graph with non-trivial tracking state, cleared and run
through a concrete evaluation sequence against its fresh twin. -/
theorem clear_runs_fresh_equiv_witness :
    gW0.N = gW.N ∧ gW0.adj = gW.adj ∧ gW0.currentScore = ⊥ ∧
      gW0.currentBest = [] ∧ gW0.runs = [] ∧
      (gW.clear_runs.currentScore = ⊥ ∧ gW.clear_runs.currentBest = [] ∧
        gW.clear_runs.runs = [] ∧
        trajectory gW.clear_runs opsW = trajectory gW0 opsW ∧
        (runOps gW.clear_runs opsW).map Graph.runs
          = (runOps gW0 opsW).map Graph.runs) :=
  ⟨by decide, by decide, by decide, by decide, by decide,
    clear_runs_fresh_equiv gW gW0 (by decide) (by decide) (by decide)
      (by decide) (by decide) opsW⟩

/-! ## Claim C1: the objective returned to the optimizer -/

theorem getExp_fold :
    ∀ (dist : List (List Bool × ℕ)) (shots : ℕ) (g : Graph) (a : ℚ),
      (∀ p ∈ dist, p.1.length = g.N) →
      ∃ h, dist.foldlM
          (fun (acc : ℚ × Graph) p =>
            (acc.2.update_score p.1).map
              (fun q => (acc.1 + (q.1 : ℚ) * ((p.2 : ℚ) / (shots : ℚ)), q.2)))
          (a, g)
        = some (a + (dist.map (fun p =>
            ((cutScore g.adj p.1 : ℤ) : ℚ) * ((p.2 : ℚ) / (shots : ℚ)))).sum, h) ∧
        h.N = g.N ∧ h.adj = g.adj ∧ h.runs = g.runs := by
  intro dist
  induction dist with
  | nil =>
    intro shots g a _
    exact ⟨g, by simp, rfl, rfl, rfl⟩
  | cons p rest ih =>
    intro shots g a hlen
    have hb : p.1.length = g.N := hlen p (by simp)
    set g1 := if ((cutScore g.adj p.1 : ℤ) : WithBot ℤ) > g.currentScore then
        { g with currentScore := ((cutScore g.adj p.1 : ℤ) : WithBot ℤ),
                 currentBest := p.1 }
      else g with hg1def
    have hg1N : g1.N = g.N := by rw [hg1def]; split <;> rfl
    have hg1adj : g1.adj = g.adj := by rw [hg1def]; split <;> rfl
    have hg1runs : g1.runs = g.runs := by rw [hg1def]; split <;> rfl
    obtain ⟨h, hfold, hN, hadj, hruns⟩ := ih shots g1
      (a + ((cutScore g.adj p.1 : ℤ) : ℚ) * ((p.2 : ℚ) / (shots : ℚ)))
      (fun p' hp' => by rw [hg1N]; exact hlen p' (by simp [hp']))
    refine ⟨h, ?_, by rw [hN, hg1N], by rw [hadj, hg1adj],
      by rw [hruns, hg1runs]⟩
    rw [List.foldlM_cons]
    have hstep : ((a, g).2.update_score p.1).map
        (fun q => ((a, g).1 + (q.1 : ℚ) * ((p.2 : ℚ) / (shots : ℚ)), q.2))
        = some (a + ((cutScore g.adj p.1 : ℤ) : ℚ) * ((p.2 : ℚ) / (shots : ℚ)), g1) := by
      show (g.update_score p.1).map _ = _
      rw [update_score_eq g p.1 hb]
      rfl
    rw [hstep]
    show rest.foldlM _
        (a + ((cutScore g.adj p.1 : ℤ) : ℚ) * ((p.2 : ℚ) / (shots : ℚ)), g1) = _
    rw [hg1adj] at hfold
    rw [hfold, List.map_cons, List.sum_cons, ← add_assoc]

/-- C1.  For every graph, parameter pair and sampled distribution, the
optimizer-facing objective `sk_get_exp` computes the expectation as the sum
over outcomes of (empirical probability x cut score), appends exactly that
(positive) expectation to the run history via `add_run`, and returns the
negated expectation to the caller. -/
theorem sk_get_exp_spec (γ β : ℚ) (g : Graph) (dist : List (List Bool × ℕ))
    (shots : ℕ) (hlen : ∀ p ∈ dist, p.1.length = g.N) :
    ∃ h, sk_get_exp γ β g dist shots
        = some (-((dist.map (fun p =>
            ((cutScore g.adj p.1 : ℤ) : ℚ) * ((p.2 : ℚ) / (shots : ℚ)))).sum), h) ∧
      h.runs = g.runs ++ [(γ, β, (dist.map (fun p =>
          ((cutScore g.adj p.1 : ℤ) : ℚ) * ((p.2 : ℚ) / (shots : ℚ)))).sum)] := by
  obtain ⟨h0, hfold, _, _, hruns⟩ := getExp_fold dist shots g 0 hlen
  rw [zero_add] at hfold
  refine ⟨h0.add_run γ β ((dist.map (fun p =>
      ((cutScore g.adj p.1 : ℤ) : ℚ) * ((p.2 : ℚ) / (shots : ℚ)))).sum), ?_, ?_⟩
  · rw [sk_get_exp, get_expectation, hfold]
    show some ((-1 : ℚ) * _, _) = _
    rw [neg_one_mul]
  · show h0.runs ++ _ = g.runs ++ _
    rw [hruns]

/-- C1 witness: a concrete two-outcome distribution on the concrete graph. -/
theorem sk_get_exp_spec_witness :
    (∀ p ∈ ([([false, true, false], 512), ([false, false, false], 512)] :
        List (List Bool × ℕ)), p.1.length = gEx.N) ∧
      ∃ h, sk_get_exp 1 2 gEx
            [([false, true, false], 512), ([false, false, false], 512)] 1024
          = some (-((([([false, true, false], 512), ([false, false, false], 512)] :
              List (List Bool × ℕ)).map (fun p =>
              ((cutScore gEx.adj p.1 : ℤ) : ℚ) * ((p.2 : ℚ) / ((1024 : ℕ) : ℚ)))).sum), h) ∧
        h.runs = gEx.runs ++ [(1, 2, (([([false, true, false], 512),
            ([false, false, false], 512)] : List (List Bool × ℕ)).map (fun p =>
            ((cutScore gEx.adj p.1 : ℤ) : ℚ) * ((p.2 : ℚ) / ((1024 : ℕ) : ℚ)))).sum)] :=
  ⟨by decide, sk_get_exp_spec 1 2 gEx
    [([false, true, false], 512), ([false, false, false], 512)] 1024 (by decide)⟩
